import Mathlib

/-!
Shallow embedding of the normalization, calibration, fusion and comparison
core of the `graph_travel` repository (files `xiyou/normalize_adapter.py`
and `xiyou/compare_service.py`), together with proofs of the spec claims.

Python strings are modelled as `List Char`; Python `str.strip()` is
modelled by removing whitespace characters from both ends; compiled regex
substitutions (`re.compile(pat).sub(rep, ·)`) are modelled as abstract
total functions `Str → Str`, since the claims quantify over arbitrary
rule sets; Python dicts with string keys are modelled as association
lists in insertion order (Python 3.7+ dicts preserve insertion order);
float confidences are modelled as rationals (only order and `max` on
confidences matter for the claims, which IEEE floats decide identically).
-/

set_option autoImplicit false

namespace GraphTravel

/-- Python `str` modelled as a list of characters. -/
abbrev Str := List Char

/-- Coerce a Lean string literal into the model. -/
def str (s : String) : Str := s.toList

/-- Python `str.strip()`: drop whitespace from the front and the back. -/
def pyStrip (s : Str) : Str :=
  List.rdropWhile Char.isWhitespace (List.dropWhile Char.isWhitespace s)

/-- Python truthiness for an optional string field of a dict:
`d.get(k) or default` yields `default` when the field is missing or empty. -/
def falsyOr (a : Option Str) (dflt : Str) : Str :=
  match a with
  | some s => if s.isEmpty then dflt else s
  | none => dflt

/-- Python `a.get(k) or b.get(k2) or ""` with two fallback keys. -/
def falsyOr2 (a b : Option Str) : Str :=
  falsyOr a (falsyOr b [])

/-- A synonym table (`synonyms_map`): raw name → canonical name, as an
insertion-ordered association list with unique keys (a Python dict). -/
abbrev Synonyms := List (Str × Str)

/-- Python `syn.get(n)`: first (only) binding of `n`. -/
def synGet (syn : Synonyms) (n : Str) : Option Str :=
  (syn.find? (fun p => p.1 == n)).map (fun p => p.2)

/-- Python `syn.get(n, n)`. -/
def synGetD (syn : Synonyms) (n : Str) : Str :=
  (synGet syn n).getD n

/-- The result of `parse_alias_rules`: ordered regex substitutions
(each compiled `(pat, rep)` pair modelled as the total function
`n ↦ pat.sub(rep, n)`) and ordered strip tokens. `parse_alias_rules`
only keeps non-empty strip tokens (`if tok:`). -/
structure AliasRules where
  regex_rules : List (Str → Str)
  strip_tokens : List Str

/-- The regex loop shared by `canonical_original` and `canonical_norm`:
apply every substitution in configured order. -/
def applyRegexRules (rules : List (Str → Str)) (n : Str) : Str :=
  rules.foldl (fun acc f => f acc) n

/-- Python `n[:-k]` for `k = len(tok)`: note `n[:-0] = ""`. -/
def pyDropSlice (n : Str) (k : Nat) : Str :=
  if k = 0 then [] else n.take (n.length - k)

/-- One iteration of the strip-token loop of `canonical_norm`:
`if n.startswith(tok): n = n[len(tok):]` then
`if n.endswith(tok): n = n[:-len(tok)]`. -/
def stripTokStep (n tok : Str) : Str :=
  let n1 := if tok.isPrefixOf n then n.drop tok.length else n
  if tok.isSuffixOf n1 then pyDropSlice n1 tok.length else n1

/-- `canonical_original(name, alias)` (the `alias` dict is the `ar` argument) from `normalize_adapter.py`:
strip, apply regex rules, strip. -/
def canonical_original (name : Str) (ar : AliasRules) : Str :=
  pyStrip (applyRegexRules ar.regex_rules (pyStrip name))

/-- `canonical_norm(name, synonyms, alias)` from `normalize_adapter.py`:
strip, apply regex rules, synonym lookup, strip-token loop, strip. -/
def canonical_norm (name : Str) (syn : Synonyms) (ar : AliasRules) : Str :=
  let n := pyStrip name
  let n := applyRegexRules ar.regex_rules n
  let n := synGetD syn n
  let n := ar.strip_tokens.foldl stripTokStep n
  pyStrip n

/-! ### Basic facts about `pyStrip` -/

theorem dropWhile_eq_self_of_front {p : Char → Bool} {l t : Str}
    (hl : List.dropWhile p l = l) (ht : t <+: l) :
    List.dropWhile p t = t := by
  cases t with
  | nil => rfl
  | cons a t2 =>
    obtain ⟨r, hr⟩ := ht
    have ha : p a = false := by
      by_contra hpa
      have hpa' : p a = true := by
        cases h : p a
        · exact absurd h hpa
        · rfl
      rw [← hr] at hl
      rw [List.cons_append, List.dropWhile_cons_of_pos hpa'] at hl
      have := congrArg List.length hl
      simp only [List.length_cons] at this
      have hle : (List.dropWhile p (t2 ++ r)).length ≤ (t2 ++ r).length :=
        (List.dropWhile_suffix p).length_le
      omega
    rw [List.dropWhile_cons_of_neg (by simp [ha])]

theorem pyStrip_idem (s : Str) : pyStrip (pyStrip s) = pyStrip s := by
  unfold pyStrip
  have h1 : List.dropWhile Char.isWhitespace
      (List.rdropWhile Char.isWhitespace (List.dropWhile Char.isWhitespace s)) =
      List.rdropWhile Char.isWhitespace (List.dropWhile Char.isWhitespace s) := by
    apply dropWhile_eq_self_of_front (l := List.dropWhile Char.isWhitespace s)
    · exact List.dropWhile_idempotent _ _
    · exact List.rdropWhile_prefix _ _
  rw [h1, List.rdropWhile_idempotent]

/-! ### Claim C1: idempotence of canonicalization -/

theorem stripTokStep_fixed {n tok : Str}
    (hp : tok.isPrefixOf n = false) (hs : tok.isSuffixOf n = false) :
    stripTokStep n tok = n := by
  unfold stripTokStep
  simp [hp, hs]

theorem stripTokens_fixed {toks : List Str} {n : Str}
    (h : ∀ tok ∈ toks, tok.isPrefixOf n = false ∧ tok.isSuffixOf n = false) :
    toks.foldl stripTokStep n = n := by
  induction toks with
  | nil => rfl
  | cons tok rest ih =>
    have h0 := h tok (by simp)
    rw [List.foldl_cons, stripTokStep_fixed h0.1 h0.2]
    exact ih (fun t ht => h t (by simp [ht]))

/-- C1. Canonicalization is idempotent for a fixed `(synonyms, aliasRules)`
pair whose regex rules, synonym table and strip tokens are non-overlapping
with their own outputs, i.e. the output `canonical_norm x syn ar` is
fixed by every regex rule, is not a synonym-table key, and has no strip
token as a prefix or a suffix. -/
theorem canonical_norm_idempotent (x : Str) (syn : Synonyms) (ar : AliasRules)
    (hreg : applyRegexRules ar.regex_rules (canonical_norm x syn ar) =
      canonical_norm x syn ar)
    (hsyn : synGet syn (canonical_norm x syn ar) = none)
    (hstrip : ∀ tok ∈ ar.strip_tokens,
      tok.isPrefixOf (canonical_norm x syn ar) = false ∧
      tok.isSuffixOf (canonical_norm x syn ar) = false) :
    canonical_norm (canonical_norm x syn ar) syn ar =
      canonical_norm x syn ar := by
  set y := canonical_norm x syn ar with hy
  have hstripy : pyStrip y = y := by
    rw [hy]
    unfold canonical_norm
    exact pyStrip_idem _
  show pyStrip (List.foldl stripTokStep
      (synGetD syn (applyRegexRules ar.regex_rules (pyStrip y)))
      ar.strip_tokens) = y
  rw [hstripy, hreg, synGetD, hsyn, Option.getD_none, stripTokens_fixed hstrip,
    hstripy]

/-- Witness for C1 at a concrete configuration: synonyms `{"a" ↦ "b"}`,
no regex rules, no strip tokens, input `"a"`. -/
theorem canonical_norm_idempotent_witness :
    (applyRegexRules (AliasRules.mk [] []).regex_rules
        (canonical_norm (str "a") [(str "a", str "b")] (AliasRules.mk [] [])) =
      canonical_norm (str "a") [(str "a", str "b")] (AliasRules.mk [] [])) ∧
    (synGet [(str "a", str "b")]
        (canonical_norm (str "a") [(str "a", str "b")] (AliasRules.mk [] [])) = none) ∧
    canonical_norm
        (canonical_norm (str "a") [(str "a", str "b")] (AliasRules.mk [] []))
        [(str "a", str "b")] (AliasRules.mk [] []) =
      canonical_norm (str "a") [(str "a", str "b")] (AliasRules.mk [] []) := by
  refine ⟨by rfl, by decide, ?_⟩
  exact canonical_norm_idempotent (str "a") [(str "a", str "b")]
    (AliasRules.mk [] []) (by rfl) (by decide) (by decide)

/-! ### Relation records and `normalize_relations` -/

/-- The reserved entity-type tokens (`TYPE_ENUM` in `normalize_adapter.py`). -/
def TYPE_ENUM : List Str :=
  [str "Person", str "Location", str "Item", str "Spell",
   str "Organization", str "Deity"]

/-- A raw relation dict, with the alternate keys `normalize_relations`
reads (`head`/`subject`, `tail`/`object`, `type`/`relation`); a missing
key is `none`. `obj` stands for the `object` key and `typ` for `type`. -/
structure RawRel where
  head : Option Str
  subject : Option Str
  tail : Option Str
  obj : Option Str
  typ : Option Str
  relation : Option Str
  confidence : Option ℚ
  evidence : Option Str
  qualifiers : List (Str × Str)
deriving DecidableEq

/-- A normalized relation record as built by `normalize_relations` /
`calibrate_relations` (fields `head`, `relation`, `tail`, `confidence`,
`evidence`, `qualifiers`; `chapter_id` is read by `fuse_relations` via
`.get`, absent records carry `none`). -/
structure Rel where
  head : Str
  relation : Str
  tail : Str
  confidence : Option ℚ
  evidence : Option Str
  qualifiers : List (Str × Str)
  chapter_id : Option Str
deriving DecidableEq

/-- The alias-side / canonical-side choice of the `ALIAS` branch of
`normalize_relations`: prefer a tail that is a synonym key, then a head
that is one, else tail-as-alias / head-as-canonical. -/
def aliasSides (syn : Synonyms) (ah atl : Str) : Str × Str :=
  match synGet syn atl with
  | some c => (atl, c)
  | none =>
    match synGet syn ah with
    | some c => (ah, c)
    | none => (atl, ah)

/-- `normalize_relations(obj, syn, alias, alias_relations)` over an
already-extracted relation list (`_relations_from_obj`). -/
def normalize_relations (rels : List RawRel) (syn : Synonyms) (ar : AliasRules)
    (alias_relations : List Str) : List Rel :=
  match rels with
  | [] => []
  | r :: rest =>
    let raw_head := falsyOr2 r.head r.subject
    let raw_tail := falsyOr2 r.tail r.obj
    let raw_type := falsyOr2 r.typ r.relation
    if raw_head.isEmpty ∨ raw_tail.isEmpty ∨ raw_type.isEmpty then
      normalize_relations rest syn ar alias_relations
    else if raw_type ∈ alias_relations then
      let sides := aliasSides syn (canonical_original raw_head ar)
        (canonical_original raw_tail ar)
      Rel.mk sides.1 (str "ALIAS") (canonical_norm sides.2 syn ar)
          r.confidence r.evidence
          (if r.qualifiers.isEmpty then
            [(str "alias_source", str "evidence_trigger")]
          else r.qualifiers)
          none ::
        normalize_relations rest syn ar alias_relations
    else
      let h := canonical_norm raw_head syn ar
      let t := canonical_norm raw_tail syn ar
      if h ∈ TYPE_ENUM ∨ t ∈ TYPE_ENUM then
        normalize_relations rest syn ar alias_relations
      else
        Rel.mk h raw_type t r.confidence r.evidence r.qualifiers none ::
          normalize_relations rest syn ar alias_relations

/-! ### Claim C2: the alias branch of `normalize_relations` -/

/-- C2. A raw relation whose label is in `aliasRelationLabels` and whose
head, tail and label are non-empty contributes exactly one record:
`relation = "ALIAS"`, head = the alias-side form, tail = the full
canonicalization of the canonical-side form, the side chosen by first
testing the `canonical_original`-ed tail for synonym-key membership, then
the head, else tail-as-alias / head-as-canonical; confidence and evidence
are preserved and the qualifiers default to
`{alias_source: "evidence_trigger"}` when absent. -/
theorem normalize_relations_alias_case (r : RawRel) (rest : List RawRel)
    (syn : Synonyms) (ar : AliasRules) (ars : List Str)
    (hh : falsyOr2 r.head r.subject ≠ [])
    (ht : falsyOr2 r.tail r.obj ≠ [])
    (hl : falsyOr2 r.typ r.relation ≠ [])
    (hin : falsyOr2 r.typ r.relation ∈ ars) :
    normalize_relations (r :: rest) syn ar ars =
      Rel.mk
        (aliasSides syn (canonical_original (falsyOr2 r.head r.subject) ar)
          (canonical_original (falsyOr2 r.tail r.obj) ar)).1
        (str "ALIAS")
        (canonical_norm
          (aliasSides syn (canonical_original (falsyOr2 r.head r.subject) ar)
            (canonical_original (falsyOr2 r.tail r.obj) ar)).2 syn ar)
        r.confidence r.evidence
        (if r.qualifiers.isEmpty then
          [(str "alias_source", str "evidence_trigger")]
        else r.qualifiers)
        none ::
      normalize_relations rest syn ar ars := by
  have hh' : (falsyOr2 r.head r.subject).isEmpty = false := by
    cases h : falsyOr2 r.head r.subject with
    | nil => exact absurd h hh
    | cons a l => rfl
  have ht' : (falsyOr2 r.tail r.obj).isEmpty = false := by
    cases h : falsyOr2 r.tail r.obj with
    | nil => exact absurd h ht
    | cons a l => rfl
  have hl' : (falsyOr2 r.typ r.relation).isEmpty = false := by
    cases h : falsyOr2 r.typ r.relation with
    | nil => exact absurd h hl
    | cons a l => rfl
  rw [normalize_relations]
  simp only [hh', ht', hl', Bool.false_eq_true, or_self, if_false, if_pos hin]

/-- Witness for C2: the spec's example — raw relation
`(head=悟空, relation=法名, tail=孙悟空)` with `法名` an alias label and
synonym table `{悟空 ↦ 孙悟空}` yields
`{head: 悟空, relation: ALIAS, tail: canonicalize(孙悟空) = 孙悟空}`. -/
theorem normalize_relations_alias_case_witness :
    (falsyOr2 (some (str "悟空")) none ≠ []) ∧
    (falsyOr2 (some (str "孙悟空")) none ≠ []) ∧
    (falsyOr2 none (some (str "法名")) ≠ []) ∧
    (falsyOr2 none (some (str "法名")) ∈ [str "法名"]) ∧
    normalize_relations
        [RawRel.mk (some (str "悟空")) none (some (str "孙悟空")) none none
          (some (str "法名")) none none []]
        [(str "悟空", str "孙悟空")] (AliasRules.mk [] []) [str "法名"] =
      Rel.mk
        (aliasSides [(str "悟空", str "孙悟空")]
          (canonical_original (falsyOr2 (some (str "悟空")) none)
            (AliasRules.mk [] []))
          (canonical_original (falsyOr2 (some (str "孙悟空")) none)
            (AliasRules.mk [] []))).1
        (str "ALIAS")
        (canonical_norm
          (aliasSides [(str "悟空", str "孙悟空")]
            (canonical_original (falsyOr2 (some (str "悟空")) none)
              (AliasRules.mk [] []))
            (canonical_original (falsyOr2 (some (str "孙悟空")) none)
              (AliasRules.mk [] []))).2
          [(str "悟空", str "孙悟空")] (AliasRules.mk [] []))
        none none [(str "alias_source", str "evidence_trigger")] none ::
        [] ∧
    normalize_relations
        [RawRel.mk (some (str "悟空")) none (some (str "孙悟空")) none none
          (some (str "法名")) none none []]
        [(str "悟空", str "孙悟空")] (AliasRules.mk [] []) [str "法名"] =
      [Rel.mk (str "悟空") (str "ALIAS") (str "孙悟空") none none
        [(str "alias_source", str "evidence_trigger")] none] := by
  refine ⟨by decide, by decide, by decide, by decide, ?_, by decide⟩
  exact normalize_relations_alias_case
    (RawRel.mk (some (str "悟空")) none (some (str "孙悟空")) none none
      (some (str "法名")) none none [])
    [] [(str "悟空", str "孙悟空")] (AliasRules.mk [] []) [str "法名"]
    (by decide) (by decide) (by decide) (by decide)

/-! ### Claim C3: `_jaccard` from `compare_service.py` -/

/-- `_jaccard(a, b)` from `compare_service.py`: `1.0` when both sets are
empty, else `|a ∩ b| / |a ∪ b|` (and `0.0` on the dead branch `u = 0`).
Finite Python sets of strings are `Finset Str`; the float result is exact
here, modelled in `ℚ`. -/
def jaccard (a b : Finset Str) : ℚ :=
  if a = ∅ ∧ b = ∅ then 1
  else
    let u := (a ∪ b).card
    let i := (a ∩ b).card
    if u ≠ 0 then (i : ℚ) / (u : ℚ) else 0

/-- C3. `jaccard(∅,∅) = 1`; `jaccard(A,A) = 1` for non-empty `A`;
`jaccard` is symmetric; `jaccard(A,B)` always lies in `[0,1]`. -/
theorem jaccard_properties :
    jaccard ∅ ∅ = 1 ∧
    (∀ A : Finset Str, A ≠ ∅ → jaccard A A = 1) ∧
    (∀ A B : Finset Str, jaccard A B = jaccard B A) ∧
    (∀ A B : Finset Str, 0 ≤ jaccard A B ∧ jaccard A B ≤ 1) := by
  refine ⟨?_, ?_, ?_, ?_⟩
  · simp [jaccard]
  · intro A hA
    have hcard : A.card ≠ 0 := by
      simpa [Finset.card_eq_zero] using hA
    have hcardQ : (A.card : ℚ) ≠ 0 := by
      exact_mod_cast hcard
    simp only [jaccard, Finset.union_self, Finset.inter_self]
    rw [if_neg (by tauto), if_pos hcard]
    exact div_self hcardQ
  · intro A B
    simp only [jaccard, Finset.union_comm A B, Finset.inter_comm A B,
      and_comm]
  · intro A B
    by_cases h0 : A = ∅ ∧ B = ∅
    · simp [jaccard, h0]
    · by_cases hu : (A ∪ B).card ≠ 0
      · have hle : (A ∩ B).card ≤ (A ∪ B).card :=
          Finset.card_le_card (Finset.inter_subset_union)
        have hupos : (0 : ℚ) < ((A ∪ B).card : ℚ) := by
          exact_mod_cast Nat.pos_of_ne_zero hu
        constructor
        · simp only [jaccard, if_neg h0, if_pos hu]
          positivity
        · simp only [jaccard, if_neg h0, if_pos hu]
          rw [div_le_one hupos]
          exact_mod_cast hle
      · simp [jaccard, h0, hu]

/-- Witness for C3 at concrete sets `A = {"a"}`, `B = {"a", "b"}`. -/
theorem jaccard_properties_witness :
    ({str "a"} : Finset Str) ≠ ∅ ∧
    jaccard {str "a"} {str "a"} = 1 ∧
    jaccard {str "a"} {str "a", str "b"} =
      jaccard {str "a", str "b"} {str "a"} ∧
    0 ≤ jaccard {str "a"} {str "a", str "b"} ∧
    jaccard {str "a"} {str "a", str "b"} ≤ 1 := by
  refine ⟨by decide, jaccard_properties.2.1 {str "a"} (by decide),
    jaccard_properties.2.2.1 {str "a"} {str "a", str "b"},
    (jaccard_properties.2.2.2 {str "a"} {str "a", str "b"}).1,
    (jaccard_properties.2.2.2 {str "a"} {str "a", str "b"}).2⟩

/-! ### `calibrate_relations` -/

/-- One calibration pattern `{relation, include[], exclude[]}`; `inc`
and `exc` stand for the `include` / `exclude` keyword lists. -/
structure CalPattern where
  relation : Str
  inc : List Str
  exc : List Str
deriving DecidableEq

/-- The `settings["relations"]` fragment read by `calibrate_relations`:
`patterns` and the `allowed` vocabulary. -/
structure CalCfg where
  patterns : List CalPattern
  allowed : List Str
deriving DecidableEq

/-- Python substring containment `needle in hay`. -/
def pyIn (needle : Str) : Str → Bool
  | [] => needle.isPrefixOf []
  | c :: t => needle.isPrefixOf (c :: t) || pyIn needle t

/-- The pattern test of `calibrate_relations`:
`inc and any(k in ev for k in inc) and not any(x in ev for x in exc)`
(`k in ev` is substring containment). -/
def patMatches (ev : Str) (p : CalPattern) : Bool :=
  !p.inc.isEmpty && p.inc.any (fun k => pyIn k ev) &&
    !p.exc.any (fun x => pyIn x ev)

/-- The per-record body of the `calibrate_relations` loop: one copy per
matching pattern with `relation` overridden (`nr = dict(r);
nr["relation"] = rel`), or the unchanged record when nothing matched. -/
def calibrateOne (cfg : CalCfg) (r : Rel) : List Rel :=
  let ev := falsyOr r.evidence []
  let matched := cfg.patterns.filter (patMatches ev)
  if matched.isEmpty then [r]
  else matched.map (fun p =>
    Rel.mk r.head p.relation r.tail r.confidence r.evidence r.qualifiers
      r.chapter_id)

/-- `calibrate_relations(relations, settings)`: fan-out pass followed by
the `allowed`-vocabulary filter (a no-op when `allowed` is empty; the
dead `or not allowed` disjunct of the comprehension is kept). -/
def calibrate_relations (relations : List Rel) (cfg : CalCfg) : List Rel :=
  let out := (relations.map (calibrateOne cfg)).flatten
  if cfg.allowed.isEmpty then out
  else out.filter (fun x =>
    decide (x.relation ∈ cfg.allowed) || cfg.allowed.isEmpty)

/-! ### Claim C4: calibration fan-out -/

/-- C4. With an empty `allowed` vocabulary, calibration emits, for each
input relation, one separate copy per matching pattern with `relation`
overridden to the pattern's label, and passes the original through
unchanged exactly when zero patterns match; in particular a single
relation whose evidence matches exactly 2 patterns yields exactly 2
output records (and no original). -/
theorem calibrateOne_eq (pats : List CalPattern) (al : List Str) (r : Rel) :
    calibrateOne (CalCfg.mk pats al) r =
      (if pats.filter (patMatches (falsyOr r.evidence [])) = [] then [r]
       else (pats.filter (patMatches (falsyOr r.evidence []))).map (fun p =>
        Rel.mk r.head p.relation r.tail r.confidence r.evidence r.qualifiers
          r.chapter_id)) := by
  by_cases h : pats.filter (patMatches (falsyOr r.evidence [])) = []
  · simp [calibrateOne, h]
  · simp [calibrateOne, h]

theorem calibrate_relations_fanout (rels : List Rel) (pats : List CalPattern) :
    (calibrate_relations rels (CalCfg.mk pats []) = rels.flatMap (fun r =>
      let matched := pats.filter (patMatches (falsyOr r.evidence []))
      if matched = [] then [r]
      else matched.map (fun p =>
        Rel.mk r.head p.relation r.tail r.confidence r.evidence r.qualifiers
          r.chapter_id))) ∧
    (∀ r : Rel,
      (pats.filter (patMatches (falsyOr r.evidence []))).length = 2 →
      (calibrate_relations [r] (CalCfg.mk pats [])).length = 2 ∧
      r ∉ calibrate_relations [r] (CalCfg.mk pats [])
        ∨ ∃ p ∈ pats, r.relation = p.relation) := by
  constructor
  · show (rels.map (calibrateOne (CalCfg.mk pats []))).flatten = _
    have hfun : calibrateOne (CalCfg.mk pats []) = fun r =>
        (if pats.filter (patMatches (falsyOr r.evidence [])) = [] then [r]
         else (pats.filter (patMatches (falsyOr r.evidence []))).map (fun p =>
          Rel.mk r.head p.relation r.tail r.confidence r.evidence r.qualifiers
            r.chapter_id)) :=
      funext (calibrateOne_eq pats [])
    rw [List.flatMap_def, hfun]
  · intro r hlen
    by_cases hself : ∃ p ∈ pats, r.relation = p.relation
    · exact Or.inr hself
    · refine Or.inl ?_
      have hne : pats.filter (patMatches (falsyOr r.evidence [])) ≠ [] := by
        intro h
        rw [h] at hlen
        simp at hlen
      have hcal : calibrate_relations [r] (CalCfg.mk pats []) =
          (pats.filter (patMatches (falsyOr r.evidence []))).map (fun p =>
            Rel.mk r.head p.relation r.tail r.confidence r.evidence
              r.qualifiers r.chapter_id) := by
        show ([calibrateOne (CalCfg.mk pats []) r]).flatten = _
        rw [calibrateOne_eq, if_neg hne]
        simp
      constructor
      · rw [hcal, List.length_map, hlen]
      · rw [hcal]
        intro hmem
        obtain ⟨p, hp, hpr⟩ := List.mem_map.mp hmem
        exact hself ⟨p, List.mem_of_mem_filter hp, by rw [← hpr]⟩

/-- Witness for C4: one relation whose evidence `"xy"` contains the
include keywords of exactly the two patterns labelled `"R1"`, `"R2"`
(the third pattern is excluded), giving exactly 2 outputs and dropping
the original record labelled `"R0"`. -/
theorem calibrate_relations_fanout_witness :
    (([CalPattern.mk (str "R1") [str "x"] [],
       CalPattern.mk (str "R2") [str "y"] [],
       CalPattern.mk (str "R3") [str "z"] []].filter
        (patMatches (falsyOr (some (str "xy")) []))).length = 2) ∧
    ((calibrate_relations
        [Rel.mk (str "h") (str "R0") (str "t") none (some (str "xy")) [] none]
        (CalCfg.mk
          [CalPattern.mk (str "R1") [str "x"] [],
           CalPattern.mk (str "R2") [str "y"] [],
           CalPattern.mk (str "R3") [str "z"] []] [])).length = 2 ∧
      Rel.mk (str "h") (str "R0") (str "t") none (some (str "xy")) [] none ∉
        calibrate_relations
          [Rel.mk (str "h") (str "R0") (str "t") none (some (str "xy")) [] none]
          (CalCfg.mk
            [CalPattern.mk (str "R1") [str "x"] [],
             CalPattern.mk (str "R2") [str "y"] [],
             CalPattern.mk (str "R3") [str "z"] []] [])
      ∨ ∃ p ∈ [CalPattern.mk (str "R1") [str "x"] [],
           CalPattern.mk (str "R2") [str "y"] [],
           CalPattern.mk (str "R3") [str "z"] []],
          (Rel.mk (str "h") (str "R0") (str "t") none (some (str "xy")) []
            none).relation = p.relation) := by
  refine ⟨by decide, ?_⟩
  exact (calibrate_relations_fanout
    [Rel.mk (str "h") (str "R0") (str "t") none (some (str "xy")) [] none]
    [CalPattern.mk (str "R1") [str "x"] [],
     CalPattern.mk (str "R2") [str "y"] [],
     CalPattern.mk (str "R3") [str "z"] []]).2
    (Rel.mk (str "h") (str "R0") (str "t") none (some (str "xy")) [] none)
    (by decide)

/-! ### `fuse_relations` -/

/-- The `settings["fusion"]` fragment (plus `relations.precedence`) read
by `fuse_relations`, with each `fusion.get(..., default)` already
resolved to a value. -/
structure FusionCfg where
  group_by : Str
  key_format : Str
  evidence_merge : Str
  confidence_merge : Str
  chapter_strategy : Str
  precedence : List Str
deriving DecidableEq

/-- Python `key_fmt.format(head=…, tail=…, relation=…)` for the
placeholder keys the code passes (`\x7bhead\x7d`, `\x7btail\x7d`,
`\x7brelation\x7d`); other characters are copied through. -/
def fmtKey (h t rel : Str) : Str → Str
  | [] => []
  | c :: rest =>
    if c = '\x7b' ∧ (str "head\x7d").isPrefixOf rest then
      h ++ fmtKey h t rel (rest.drop 5)
    else if c = '\x7b' ∧ (str "tail\x7d").isPrefixOf rest then
      t ++ fmtKey h t rel (rest.drop 5)
    else if c = '\x7b' ∧ (str "relation\x7d").isPrefixOf rest then
      rel ++ fmtKey h t rel (rest.drop 9)
    else c :: fmtKey h t rel rest
termination_by fmt => fmt.length
decreasing_by
  · simp [List.length_drop]
    omega
  · simp [List.length_drop]
    omega
  · simp [List.length_drop]
    omega
  · simp

/-- The grouping key: `f"{head}|{tail}"` under the default
`head_tail` mode, otherwise the formatted `key_format`. -/
def groupKey (cfg : FusionCfg) (r : Rel) : Str :=
  if cfg.group_by = str "head_tail" then r.head ++ str "|" ++ r.tail
  else fmtKey r.head r.tail r.relation cfg.key_format

/-- `groups.setdefault(k, []).append(r)` on an insertion-ordered dict. -/
def addToGroups (gs : List (Str × List Rel)) (k : Str) (r : Rel) :
    List (Str × List Rel) :=
  match gs with
  | [] => [(k, [r])]
  | (k2, items) :: rest =>
    if k2 = k then (k2, items ++ [r]) :: rest
    else (k2, items) :: addToGroups rest k r

/-- The grouping loop of `fuse_relations`. -/
def buildGroups (cfg : FusionCfg) (rels : List Rel) :
    List (Str × List Rel) :=
  rels.foldl (fun gs r => addToGroups gs (groupKey cfg r) r) []

/-- `x.get("confidence") or 0.0`. -/
def confOrZero (x : Rel) : ℚ :=
  x.confidence.getD 0

/-- `rel_rank`: `(precedence.index(rel) if rel in precedence else
len(precedence), -conf)`; `List.indexOf` returns the length when the
label is absent, exactly the Python fallback. -/
def rel_rank (precedence : List Str) (x : Rel) : ℕ × ℚ :=
  (List.indexOf x.relation precedence, -(confOrZero x))

/-- Strict lexicographic comparison of rank tuples. -/
def rankLt (a b : ℕ × ℚ) : Bool :=
  decide (a.1 < b.1) || (decide (a.1 = b.1) && decide (a.2 < b.2))

/-- `sorted(items, key=rel_rank)[0]`: the earliest element of minimal
rank (Python sort is stable). The `[]` case is unreachable — groups
always hold the record that created them. -/
def winner (precedence : List Str) (items : List Rel) : Rel :=
  match items with
  | [] => Rel.mk [] [] [] none none [] none
  | it0 :: rest =>
    rest.foldl (fun best it =>
      if rankLt (rel_rank precedence it) (rel_rank precedence best) then it
      else best) it0

/-- `ev_set.add(ev)`: append when new. -/
def setAdd (s : List Str) (x : Str) : List Str :=
  if x ∈ s then s else s ++ [x]

/-- One step of the evidence-set loop: add a string-valued
(`isinstance(ev, str)`) evidence under the `union` policy. -/
def evStep (cfg : FusionCfg) (s : List Str) (it : Rel) : List Str :=
  match it.evidence with
  | some ev => if cfg.evidence_merge = str "union" then setAdd s ev else s
  | none => s

/-- The evidence-set loop of `fuse_relations`. -/
def evSet (cfg : FusionCfg) (items : List Rel) : List Str :=
  items.foldl (evStep cfg) []

/-- Python `sorted` on distinct strings: lexicographic by code point. -/
def sortStr (l : List Str) : List Str :=
  List.insertionSort (· ≤ ·) l

/-- Python `max` on a list of rationals (`0` on the unreachable `[]`). -/
def maxQ (l : List ℚ) : ℚ :=
  match l with
  | [] => 0
  | c :: rest => rest.foldl max c

/-- The confidence merge:
`max(confidences) if "max" else (sum/len if confidences else 0.0)`. -/
def fuseConfidence (cfg : FusionCfg) (items : List Rel) : ℚ :=
  let confidences := items.map confOrZero
  if cfg.confidence_merge = str "max" then maxQ confidences
  else if confidences.isEmpty then 0
  else confidences.sum / confidences.length

/-- The chapter comprehension guard: `it.get("chapter_id")` truthy. -/
def truthyChapter (it : Rel) : Option Str :=
  match it.chapter_id with
  | some c => if c.isEmpty then none else some c
  | none => none

/-- A fused output record of `fuse_relations`
(`qualifiers = {"chapters": chapters}` is the `chapters` field). -/
structure FRel where
  head : Str
  tail : Str
  relation : Str
  confidence : ℚ
  evidence : Str
  chapters : List Str
  chapter_id : Option Str
deriving DecidableEq

/-- The per-group body of `fuse_relations`. -/
def fuseGroup (cfg : FusionCfg) (items : List Rel) : FRel :=
  let w := winner cfg.precedence items
  let evidence := List.intercalate (str " | ") (sortStr (evSet cfg items))
  let confidence := fuseConfidence cfg items
  let chapters := items.filterMap truthyChapter
  let chapter_id :=
    if cfg.chapter_strategy = str "first" then chapters.head? else none
  FRel.mk w.head w.tail w.relation confidence evidence chapters chapter_id

/-- `fuse_relations(relations, settings)`: group, then merge each group. -/
def fuse_relations (relations : List Rel) (cfg : FusionCfg) : List FRel :=
  (buildGroups cfg relations).map (fun g => fuseGroup cfg g.2)

/-! ### Claim C5: the evidence union merge -/

theorem mem_setAdd {s : List Str} {x y : Str} :
    y ∈ setAdd s x ↔ y ∈ s ∨ y = x := by
  unfold setAdd
  by_cases h : x ∈ s
  · rw [if_pos h]
    constructor
    · exact Or.inl
    · rintro (hy | rfl)
      · exact hy
      · exact h
  · rw [if_neg h]
    simp

theorem nodup_setAdd {s : List Str} {x : Str} (hs : s.Nodup) :
    (setAdd s x).Nodup := by
  unfold setAdd
  by_cases h : x ∈ s
  · rw [if_pos h]
    exact hs
  · rw [if_neg h]
    simp [List.nodup_append, hs, h]

theorem evStep_none {cfg : FusionCfg} {s : List Str} {it : Rel}
    (hit : it.evidence = none) : evStep cfg s it = s := by
  unfold evStep
  rw [hit]

theorem evStep_some {cfg : FusionCfg} {s : List Str} {it : Rel} {ev : Str}
    (hit : it.evidence = some ev) (hm : cfg.evidence_merge = str "union") :
    evStep cfg s it = setAdd s ev := by
  unfold evStep
  rw [hit]
  show (if cfg.evidence_merge = str "union" then setAdd s ev else s) =
    setAdd s ev
  rw [if_pos hm]

theorem evStep_some_not {cfg : FusionCfg} {s : List Str} {it : Rel} {ev : Str}
    (hit : it.evidence = some ev) (hm : ¬cfg.evidence_merge = str "union") :
    evStep cfg s it = s := by
  unfold evStep
  rw [hit]
  show (if cfg.evidence_merge = str "union" then setAdd s ev else s) = s
  rw [if_neg hm]

theorem mem_evSet_fold (cfg : FusionCfg)
    (hm : cfg.evidence_merge = str "union") (items : List Rel) :
    ∀ (s : List Str) (y : Str),
      (y ∈ items.foldl (evStep cfg) s ↔
        y ∈ s ∨ ∃ it ∈ items, it.evidence = some y) := by
  induction items with
  | nil => simp
  | cons it rest ih =>
    intro s y
    rw [List.foldl_cons]
    cases hit : it.evidence with
    | none =>
      rw [evStep_none hit, ih]
      constructor
      · rintro (hy | hy)
        · exact Or.inl hy
        · exact Or.inr (by
            obtain ⟨a, ha, he⟩ := hy
            exact ⟨a, List.mem_cons_of_mem _ ha, he⟩)
      · rintro (hy | ⟨a, ha, he⟩)
        · exact Or.inl hy
        · rcases List.mem_cons.mp ha with rfl | ha2
          · rw [hit] at he
            cases he
          · exact Or.inr ⟨a, ha2, he⟩
    | some ev =>
      rw [evStep_some hit hm, ih]
      constructor
      · rintro (hy | hy)
        · rcases mem_setAdd.mp hy with h2 | rfl
          · exact Or.inl h2
          · exact Or.inr ⟨it, List.mem_cons_self _ _, hit⟩
        · obtain ⟨a, ha, he⟩ := hy
          exact Or.inr ⟨a, List.mem_cons_of_mem _ ha, he⟩
      · rintro (hy | ⟨a, ha, he⟩)
        · exact Or.inl (mem_setAdd.mpr (Or.inl hy))
        · rcases List.mem_cons.mp ha with rfl | ha2
          · rw [hit] at he
            cases he
            exact Or.inl (mem_setAdd.mpr (Or.inr rfl))
          · exact Or.inr ⟨a, ha2, he⟩

theorem nodup_evSet_fold (cfg : FusionCfg) (items : List Rel) :
    ∀ s : List Str, s.Nodup → (items.foldl (evStep cfg) s).Nodup := by
  induction items with
  | nil => exact fun s hs => hs
  | cons it rest ih =>
    intro s hs
    rw [List.foldl_cons]
    cases hit : it.evidence with
    | none =>
      rw [evStep_none hit]
      exact ih s hs
    | some ev =>
      by_cases hm : cfg.evidence_merge = str "union"
      · rw [evStep_some hit hm]
        exact ih _ (nodup_setAdd hs)
      · rw [evStep_some_not hit hm]
        exact ih s hs

/-- C5, corrected. Under the `union` policy the fused evidence is the
lexicographically sorted, `" | "`-joined list of the distinct
**string-valued** evidences of the group — the empty string, when it
occurs as an evidence, is collected too (the code only tests
`isinstance(ev, str)`, not non-emptiness). -/
theorem fuseGroup_evidence_union (cfg : FusionCfg) (items : List Rel)
    (hm : cfg.evidence_merge = str "union") :
    ∃ evs : List Str, List.Sorted (· ≤ ·) evs ∧ evs.Nodup ∧
      (∀ e : Str, e ∈ evs ↔ ∃ it ∈ items, it.evidence = some e) ∧
      (fuseGroup cfg items).evidence = List.intercalate (str " | ") evs := by
  refine ⟨sortStr (evSet cfg items), List.sorted_insertionSort _ _, ?_, ?_, rfl⟩
  · exact ((List.perm_insertionSort _ _).nodup_iff).mpr
      (nodup_evSet_fold cfg items [] List.nodup_nil)
  · intro e
    show e ∈ List.insertionSort (· ≤ ·) (evSet cfg items) ↔ _
    rw [(List.perm_insertionSort _ _).mem_iff]
    show e ∈ List.foldl (evStep cfg) [] items ↔ _
    rw [mem_evSet_fold cfg hm items []]
    simp

/-- Witness for C5's corrected theorem at a concrete `union` group. -/
theorem fuseGroup_evidence_union_witness :
    ∃ evs : List Str, List.Sorted (· ≤ ·) evs ∧ evs.Nodup ∧
      (∀ e : Str, e ∈ evs ↔ ∃ it ∈
        [Rel.mk (str "h") (str "R") (str "t") none (some []) [] none,
         Rel.mk (str "h") (str "R") (str "t") none (some (str "a")) [] none],
        it.evidence = some e) ∧
      (fuseGroup
        (FusionCfg.mk (str "head_tail") [] (str "union") (str "max")
          (str "first") [])
        [Rel.mk (str "h") (str "R") (str "t") none (some []) [] none,
         Rel.mk (str "h") (str "R") (str "t") none (some (str "a")) [] none]).evidence =
        List.intercalate (str " | ") evs :=
  fuseGroup_evidence_union
    (FusionCfg.mk (str "head_tail") [] (str "union") (str "max")
      (str "first") [])
    [Rel.mk (str "h") (str "R") (str "t") none (some []) [] none,
     Rel.mk (str "h") (str "R") (str "t") none (some (str "a")) [] none]
    rfl

/-- The evidence string claim C5 as written predicts: sorted,
`" | "`-joined distinct **non-empty** evidence strings of the group.
Stated from the spec's words, for comparison against `fuseGroup`. -/
def evidenceUnionClaim (items : List Rel) : Str :=
  List.intercalate (str " | ")
    (sortStr (((items.filterMap (fun it => it.evidence)).filter
      (fun e => !e.isEmpty)).dedup))

/-- Counterexample to C5 as stated: a group whose evidences are `""` and
`"a"` fuses to `" | a"` (the empty string is collected and sorts first),
while the claim predicts `"a"`. -/
theorem fuseGroup_evidence_union_counterexample :
    (fuseGroup
      (FusionCfg.mk (str "head_tail") [] (str "union") (str "max")
        (str "first") [])
      [Rel.mk (str "h") (str "R") (str "t") none (some []) [] none,
       Rel.mk (str "h") (str "R") (str "t") none (some (str "a")) [] none]).evidence =
      str " | a" ∧
    evidenceUnionClaim
      [Rel.mk (str "h") (str "R") (str "t") none (some []) [] none,
       Rel.mk (str "h") (str "R") (str "t") none (some (str "a")) [] none] =
      str "a" ∧
    (fuseGroup
      (FusionCfg.mk (str "head_tail") [] (str "union") (str "max")
        (str "first") [])
      [Rel.mk (str "h") (str "R") (str "t") none (some []) [] none,
       Rel.mk (str "h") (str "R") (str "t") none (some (str "a")) [] none]).evidence ≠
      evidenceUnionClaim
        [Rel.mk (str "h") (str "R") (str "t") none (some []) [] none,
         Rel.mk (str "h") (str "R") (str "t") none (some (str "a")) [] none] := by
  refine ⟨by decide, by decide, by decide⟩

/-! ### Claim C6: chapter collection and the `first` strategy -/

theorem truthyChapter_eq_some {it : Rel} {c : Str} :
    truthyChapter it = some c ↔ (it.chapter_id = some c ∧ c ≠ []) := by
  unfold truthyChapter
  cases h : it.chapter_id with
  | none => simp
  | some v =>
    show (if v.isEmpty = true then none else some v) = some c ↔
      some v = some c ∧ c ≠ []
    by_cases hv : v.isEmpty = true
    · rw [if_pos hv]
      have hveq : v = [] := by
        cases v
        · rfl
        · cases hv
      subst hveq
      constructor
      · intro hx
        cases hx
      · rintro ⟨hc, hne⟩
        cases hc
        exact absurd rfl hne
    · rw [if_neg hv]
      have hvne : v ≠ [] := by
        intro h2
        subst h2
        exact hv rfl
      constructor
      · intro hx
        refine ⟨hx, ?_⟩
        have hvc : v = c := Option.some.inj hx
        subst hvc
        exact hvne
      · exact fun hx => hx.1

/-- C6. The fused record's `qualifiers.chapters` list holds exactly the
(non-empty) chapter ids present in the group, and under the `first`
strategy `chapter_id` is the first chapter id encountered in stable
input order (`none` when the strategy differs or no chapter is present). -/
theorem fuseGroup_chapters_spec (cfg : FusionCfg) (items : List Rel) :
    (∀ c : Str, c ∈ (fuseGroup cfg items).chapters ↔
      (c ≠ [] ∧ ∃ it ∈ items, it.chapter_id = some c)) ∧
    (cfg.chapter_strategy = str "first" →
      (fuseGroup cfg items).chapter_id =
        (items.filterMap truthyChapter).head?) ∧
    (cfg.chapter_strategy ≠ str "first" →
      (fuseGroup cfg items).chapter_id = none) := by
  refine ⟨?_, ?_, ?_⟩
  · intro c
    show c ∈ items.filterMap truthyChapter ↔ _
    rw [List.mem_filterMap]
    constructor
    · rintro ⟨it, hit, htr⟩
      obtain ⟨hc, hne⟩ := truthyChapter_eq_some.mp htr
      exact ⟨hne, it, hit, hc⟩
    · rintro ⟨hne, it, hit, hc⟩
      exact ⟨it, hit, truthyChapter_eq_some.mpr ⟨hc, hne⟩⟩
  · intro hm
    show (if cfg.chapter_strategy = str "first" then
      (items.filterMap truthyChapter).head? else none) = _
    rw [if_pos hm]
  · intro hm
    show (if cfg.chapter_strategy = str "first" then
      (items.filterMap truthyChapter).head? else none) = none
    rw [if_neg hm]

/-- Witness for C6 at a concrete group: records with chapters
`none, "c2", "c3"` under the `first` strategy. -/
theorem fuseGroup_chapters_spec_witness :
    ((str "c2") ∈ (fuseGroup
      (FusionCfg.mk (str "head_tail") [] (str "union") (str "max")
        (str "first") [])
      [Rel.mk (str "h") (str "R") (str "t") none none [] none,
       Rel.mk (str "h") (str "R") (str "t") none none [] (some (str "c2")),
       Rel.mk (str "h") (str "R") (str "t") none none []
         (some (str "c3"))]).chapters ↔
      (str "c2" ≠ [] ∧ ∃ it ∈
        [Rel.mk (str "h") (str "R") (str "t") none none [] none,
         Rel.mk (str "h") (str "R") (str "t") none none [] (some (str "c2")),
         Rel.mk (str "h") (str "R") (str "t") none none []
           (some (str "c3"))],
        it.chapter_id = some (str "c2"))) ∧
    (fuseGroup
      (FusionCfg.mk (str "head_tail") [] (str "union") (str "max")
        (str "first") [])
      [Rel.mk (str "h") (str "R") (str "t") none none [] none,
       Rel.mk (str "h") (str "R") (str "t") none none [] (some (str "c2")),
       Rel.mk (str "h") (str "R") (str "t") none none []
         (some (str "c3"))]).chapter_id =
      ([Rel.mk (str "h") (str "R") (str "t") none none [] none,
        Rel.mk (str "h") (str "R") (str "t") none none [] (some (str "c2")),
        Rel.mk (str "h") (str "R") (str "t") none none []
          (some (str "c3"))].filterMap truthyChapter).head? :=
  ⟨(fuseGroup_chapters_spec
      (FusionCfg.mk (str "head_tail") [] (str "union") (str "max")
        (str "first") [])
      [Rel.mk (str "h") (str "R") (str "t") none none [] none,
       Rel.mk (str "h") (str "R") (str "t") none none [] (some (str "c2")),
       Rel.mk (str "h") (str "R") (str "t") none none []
         (some (str "c3"))]).1 (str "c2"),
   (fuseGroup_chapters_spec
      (FusionCfg.mk (str "head_tail") [] (str "union") (str "max")
        (str "first") [])
      [Rel.mk (str "h") (str "R") (str "t") none none [] none,
       Rel.mk (str "h") (str "R") (str "t") none none [] (some (str "c2")),
       Rel.mk (str "h") (str "R") (str "t") none none []
         (some (str "c3"))]).2.1 rfl⟩

/-! ### Claim C8: max confidence merge dominates the group -/

theorem le_foldl_max (l : List ℚ) (b : ℚ) :
    b ≤ l.foldl max b ∧ ∀ x ∈ l, x ≤ l.foldl max b := by
  induction l generalizing b with
  | nil => simp
  | cons a rest ih =>
    simp only [List.foldl_cons]
    refine ⟨le_trans (le_max_left b a) (ih (max b a)).1, ?_⟩
    intro x hx
    rcases List.mem_cons.mp hx with rfl | hx2
    · exact le_trans (le_max_right b x) (ih (max b x)).1
    · exact (ih (max b a)).2 x hx2

/-- C8. Under the `max` confidence policy the fused confidence of a
non-empty group dominates every individual confidence (missing
confidences read as `0`). -/
theorem fuseGroup_confidence_max (cfg : FusionCfg) (items : List Rel)
    (hne : items ≠ []) (hm : cfg.confidence_merge = str "max") :
    ∀ it ∈ items, confOrZero it ≤ (fuseGroup cfg items).confidence := by
  intro it hit
  have heq : (fuseGroup cfg items).confidence = maxQ (items.map confOrZero) := by
    show fuseConfidence cfg items = _
    unfold fuseConfidence
    rw [if_pos hm]
  rw [heq]
  cases items with
  | nil => exact absurd rfl hne
  | cons it0 rest =>
    show confOrZero it ≤ (rest.map confOrZero).foldl max (confOrZero it0)
    rcases List.mem_cons.mp hit with rfl | h2
    · exact (le_foldl_max _ _).1
    · exact (le_foldl_max _ _).2 _ (List.mem_map_of_mem _ h2)

/-- Witness for C8 at a concrete two-record group with confidences
`0.3` and missing (read as `0`). -/
theorem fuseGroup_confidence_max_witness :
    ([Rel.mk (str "h") (str "R") (str "t") (some (3/10 : ℚ)) none [] none,
      Rel.mk (str "h") (str "R") (str "t") none none [] none] ≠
        ([] : List Rel)) ∧
    confOrZero
        (Rel.mk (str "h") (str "R") (str "t") (some (3/10 : ℚ)) none [] none) ≤
      (fuseGroup
        (FusionCfg.mk (str "head_tail") [] (str "union") (str "max")
          (str "first") [])
        [Rel.mk (str "h") (str "R") (str "t") (some (3/10 : ℚ)) none [] none,
         Rel.mk (str "h") (str "R") (str "t") none none [] none]).confidence :=
  ⟨by simp,
   fuseGroup_confidence_max
    (FusionCfg.mk (str "head_tail") [] (str "union") (str "max")
      (str "first") [])
    [Rel.mk (str "h") (str "R") (str "t") (some (3/10 : ℚ)) none [] none,
     Rel.mk (str "h") (str "R") (str "t") none none [] none]
    (by simp) rfl
    (Rel.mk (str "h") (str "R") (str "t") (some (3/10 : ℚ)) none [] none)
    (List.mem_cons_self _ _)⟩

/-! ### `normalize_events`, `collect_entities`, `normalize_output` -/

/-- One `{role, entity}` participant pair. -/
structure RolePair where
  role : Option Str
  entity : Option Str
deriving DecidableEq

/-- The two accepted shapes of `e.get("participants")`: a list of
`{role, entity}` pairs or a pre-grouped role → names mapping
(a missing key, `or {}`, is the empty mapping). -/
inductive Participants where
  | plist : List RolePair → Participants
  | pmap : List (Str × List Str) → Participants
deriving DecidableEq

/-- A raw event dict with the alternate keys `normalize_events` reads
(`event_type`/`type`; `typ` stands for the `type` key). -/
structure RawEvent where
  event_type : Option Str
  typ : Option Str
  time : Option Str
  location : Option Str
  participants : Participants
  evidence : Option Str
  confidence : Option ℚ
deriving DecidableEq

/-- A normalized event record. -/
structure Event where
  event_type : Str
  time : Option Str
  location : Option Str
  participants : List (Str × List Str)
  evidence : Option Str
  confidence : Option ℚ
deriving DecidableEq

/-- `d.setdefault(role, []).append(ent)` on an insertion-ordered dict. -/
def addRole (d : List (Str × List Str)) (role ent : Str) :
    List (Str × List Str) :=
  match d with
  | [] => [(role, [ent])]
  | (k, v) :: rest =>
    if k = role then (k, v ++ [ent]) :: rest
    else (k, v) :: addRole rest role ent

/-- One step of the list-shaped participants loop: canonicalize the
entity and group it under its role, skipping falsy roles (`if role:`). -/
def roleStep (syn : Synonyms) (ar : AliasRules)
    (d : List (Str × List Str)) (p : RolePair) : List (Str × List Str) :=
  let role := falsyOr p.role []
  let ent := canonical_norm (falsyOr p.entity []) syn ar
  if role.isEmpty then d else addRole d role ent

/-- The list-shaped participants branch of `normalize_events`. -/
def groupRoles (syn : Synonyms) (ar : AliasRules) (parts : List RolePair) :
    List (Str × List Str) :=
  parts.foldl (roleStep syn ar) []

/-- `normalize_events(obj, syn, alias)` over the extracted event list. -/
def normalize_events (evs : List RawEvent) (syn : Synonyms)
    (ar : AliasRules) : List Event :=
  evs.map (fun e =>
    Event.mk (falsyOr2 e.event_type e.typ) e.time e.location
      (match e.participants with
       | Participants.plist parts => groupRoles syn ar parts
       | Participants.pmap m =>
         m.map (fun rn => (rn.1, rn.2.map (fun x => canonical_norm x syn ar))))
      e.evidence e.confidence)

/-- `if x and x not in seen: seen.add(x); out.append({"name": x})` —
entities are represented by their `name` field. -/
def addEnt (out : List Str) (x : Str) : List Str :=
  if ¬x.isEmpty = true ∧ x ∉ out then out ++ [x] else out

/-- `collect_entities(relations, entities_hint, syn, alias)`; each hint
dict contributes its `name` field (`e.get("name", "")`, missing = `none`,
read back as `""`). -/
def collect_entities (relations : List Rel) (hints : List (Option Str))
    (syn : Synonyms) (ar : AliasRules) : List Str :=
  let out := relations.foldl (fun out r => addEnt (addEnt out r.head) r.tail) []
  hints.foldl (fun out e => addEnt out (canonical_norm (e.getD []) syn ar)) out

/-- The dict-shaped raw extraction payload consumed by
`normalize_output` (the `relations`/`relation_with_meta` and
`events`/`event_plus_relation` alternate keys are collapsed into one
field each; `meta` is an opaque pass-through and is omitted). -/
structure RawPayload where
  relations : List RawRel
  events : List RawEvent
  entities : List (Option Str)
deriving DecidableEq

/-- The value returned by `normalize_output` (minus the opaque `meta`). -/
structure NormOutput where
  entities : List Str
  relations : List Rel
  events : List Event
deriving DecidableEq

/-- The synthetic record appended per synonym-table entry `(a, c)`:
`{"head": a, "relation": "ALIAS", "tail": c, "confidence": 0.99,
"evidence": None, "qualifiers": {"alias_source": "synonyms_map"}}`. -/
def synMapAliasRecord (ac : Str × Str) : Rel :=
  Rel.mk ac.1 (str "ALIAS") ac.2 (some (99/100 : ℚ)) none
    [(str "alias_source", str "synonyms_map")] none

/-- `normalize_output(raw, tpl_id, synonyms_map, alias_rules,
alias_relations)`; `tpl_id` is unused by the source body and omitted. -/
def normalize_output (raw : RawPayload) (synonyms_map : Synonyms)
    (ar : AliasRules) (alias_relations : List Str) : NormOutput :=
  let relations := normalize_relations raw.relations synonyms_map ar
    alias_relations
  let events := normalize_events raw.events synonyms_map ar
  let entities := collect_entities relations raw.entities synonyms_map ar
  let extra_alias := synonyms_map.map synMapAliasRecord
  NormOutput.mk entities (relations ++ extra_alias) events

/-! ### Claim C7: the synthetic synonyms-map ALIAS records -/

/-- Counterexample to C7 as stated: with synonym table
`{"x" ↦ "y", "y" ↦ "z"}` and no alias rules, the appended record for the
entry `("x", "y")` carries tail `"y"` — the raw canonical target — while
the claim predicts `canonicalize("y") = "z"` (the `"y" ↦ "z"` entry
rewrites it). -/
theorem normalize_output_synmap_tail_counterexample :
    (normalize_output (RawPayload.mk [] [] [])
        [(str "x", str "y"), (str "y", str "z")] (AliasRules.mk [] [])
        []).relations.map (fun r => r.tail) = [str "y", str "z"] ∧
    canonical_norm (str "y") [(str "x", str "y"), (str "y", str "z")]
      (AliasRules.mk [] []) = str "z" ∧
    (normalize_output (RawPayload.mk [] [] [])
        [(str "x", str "y"), (str "y", str "z")] (AliasRules.mk [] [])
        []).relations.map (fun r => r.tail) ≠
      [canonical_norm (str "y") [(str "x", str "y"), (str "y", str "z")]
        (AliasRules.mk [] []),
       canonical_norm (str "z") [(str "x", str "y"), (str "y", str "z")]
        (AliasRules.mk [] [])] := by
  refine ⟨by decide, by decide, by decide⟩

/-- C7, corrected. `normalize_output` appends exactly one synthetic
ALIAS record per synonym-table entry, with head the raw key, tail the
**raw** canonical target as stored in the table (not its
canonicalization), confidence `0.99` and qualifiers
`{alias_source: "synonyms_map"}`, after the normalized relations. -/
theorem normalize_output_synmap_records (raw : RawPayload) (syn : Synonyms)
    (ar : AliasRules) (ars : List Str) :
    ((normalize_output raw syn ar ars).relations =
      normalize_relations raw.relations syn ar ars ++
        syn.map synMapAliasRecord) ∧
    ((normalize_output raw syn ar ars).relations.length =
      (normalize_relations raw.relations syn ar ars).length + syn.length) ∧
    (∀ ac ∈ syn,
      synMapAliasRecord ac ∈ (normalize_output raw syn ar ars).relations) := by
  refine ⟨rfl, ?_, ?_⟩
  · show (normalize_relations raw.relations syn ar ars ++
      syn.map synMapAliasRecord).length = _
    rw [List.length_append, List.length_map]
  · intro ac hac
    show _ ∈ normalize_relations raw.relations syn ar ars ++
      syn.map synMapAliasRecord
    exact List.mem_append_right _ (List.mem_map_of_mem _ hac)

/-- Witness for C7's corrected theorem at the synonym table
`{"x" ↦ "y"}` and an empty payload. -/
theorem normalize_output_synmap_records_witness :
    ((str "x", str "y") ∈ [(str "x", str "y")]) ∧
    synMapAliasRecord (str "x", str "y") ∈
      (normalize_output (RawPayload.mk [] [] []) [(str "x", str "y")]
        (AliasRules.mk [] []) []).relations :=
  ⟨List.mem_cons_self _ _,
   (normalize_output_synmap_records (RawPayload.mk [] [] [])
      [(str "x", str "y")] (AliasRules.mk [] []) []).2.2
    (str "x", str "y") (List.mem_cons_self _ _)⟩

/-! ### Claim C9: empty-role participant pairs are discarded -/

/-- Dict lookup on a role → names mapping. -/
def lookupRole (d : List (Str × List Str)) (r : Str) : Option (List Str) :=
  (d.find? (fun kv => kv.1 == r)).map (fun kv => kv.2)

theorem lookupRole_cons_eq {k : Str} {v : List Str}
    {rest : List (Str × List Str)} {r : Str} (h : k = r) :
    lookupRole ((k, v) :: rest) r = some v := by
  unfold lookupRole
  rw [List.find?_cons_of_pos _ (by simp [h])]
  rfl

theorem lookupRole_cons_ne {k : Str} {v : List Str}
    {rest : List (Str × List Str)} {r : Str} (h : ¬k = r) :
    lookupRole ((k, v) :: rest) r = lookupRole rest r := by
  unfold lookupRole
  rw [List.find?_cons_of_neg _ (by simp [h])]

theorem lookupRole_addRole (d : List (Str × List Str)) (role ent r : Str) :
    lookupRole (addRole d role ent) r =
      if r = role then some ((lookupRole d r).getD [] ++ [ent])
      else lookupRole d r := by
  induction d with
  | nil =>
    by_cases hr : r = role
    · subst hr
      rw [show addRole [] r ent = [(r, [ent])] from rfl,
        lookupRole_cons_eq rfl, if_pos rfl]
      rfl
    · rw [show addRole [] role ent = [(role, [ent])] from rfl,
        lookupRole_cons_ne (fun h => hr (Eq.symm h)), if_neg hr]
  | cons kv rest ih =>
    obtain ⟨k, v⟩ := kv
    by_cases hk : k = role
    · subst hk
      have haddr : addRole ((k, v) :: rest) k ent = (k, v ++ [ent]) :: rest := by
        unfold addRole
        rw [if_pos rfl]
      by_cases hr : r = k
      · subst hr
        rw [haddr, lookupRole_cons_eq rfl, if_pos rfl, lookupRole_cons_eq rfl]
        rfl
      · rw [haddr, lookupRole_cons_ne (fun h => hr (Eq.symm h)), if_neg hr,
          lookupRole_cons_ne (fun h => hr (Eq.symm h))]
    · have haddr : addRole ((k, v) :: rest) role ent =
          (k, v) :: addRole rest role ent := by
        simp only [addRole]
        rw [if_neg hk]
      by_cases hr : r = k
      · subst hr
        rw [haddr, lookupRole_cons_eq rfl, if_neg (fun h => hk h),
          lookupRole_cons_eq rfl]
      · rw [haddr, lookupRole_cons_ne (fun h => hr (Eq.symm h)), ih,
          lookupRole_cons_ne (fun h => hr (Eq.symm h))]

theorem roleStep_empty {syn : Synonyms} {ar : AliasRules}
    {d : List (Str × List Str)} {p : RolePair}
    (h : falsyOr p.role [] = []) : roleStep syn ar d p = d := by
  unfold roleStep
  rw [h]
  rfl

theorem roleStep_named {syn : Synonyms} {ar : AliasRules}
    {d : List (Str × List Str)} {p : RolePair}
    (h : ¬falsyOr p.role [] = []) :
    roleStep syn ar d p =
      addRole d (falsyOr p.role [])
        (canonical_norm (falsyOr p.entity []) syn ar) := by
  unfold roleStep
  have hne : (falsyOr p.role []).isEmpty = false := by
    cases hx : falsyOr p.role []
    · exact absurd hx h
    · rfl
  simp [hne]

theorem groupRoles_fold_lookup (syn : Synonyms) (ar : AliasRules) (r : Str)
    (hr : r ≠ []) :
    ∀ (parts : List RolePair) (d : List (Str × List Str)),
      lookupRole (parts.foldl (roleStep syn ar) d) r =
        (if ((parts.filter (fun p => falsyOr p.role [] = r)).map
            (fun p => canonical_norm (falsyOr p.entity []) syn ar)).isEmpty
         then lookupRole d r
         else some ((lookupRole d r).getD [] ++
          (parts.filter (fun p => falsyOr p.role [] = r)).map
            (fun p => canonical_norm (falsyOr p.entity []) syn ar))) := by
  intro parts
  induction parts with
  | nil =>
    intro d
    simp
  | cons p rest ih =>
    intro d
    rw [List.foldl_cons]
    by_cases hrole : falsyOr p.role [] = []
    · have hpr : ¬falsyOr p.role [] = r := by
        rw [hrole]
        exact fun h => hr (Eq.symm h)
      rw [roleStep_empty hrole, List.filter_cons_of_neg (by simpa using hpr)]
      exact ih d
    · by_cases hpr : falsyOr p.role [] = r
      · rw [roleStep_named hrole, hpr,
          List.filter_cons_of_pos (by simpa using hpr), List.map_cons, ih]
        have hadd := lookupRole_addRole d r
          (canonical_norm (falsyOr p.entity []) syn ar) r
        rw [if_pos rfl] at hadd
        by_cases hrest : ((rest.filter (fun p => falsyOr p.role [] = r)).map
            (fun p => canonical_norm (falsyOr p.entity []) syn ar)).isEmpty
        · rw [if_pos hrest, hadd]
          have hnilrest : (rest.filter (fun p => falsyOr p.role [] = r)).map
              (fun p => canonical_norm (falsyOr p.entity []) syn ar) = [] := by
            simpa using hrest
          rw [if_neg (by simp), hnilrest]
        · rw [if_neg hrest, hadd, if_neg (by simp)]
          simp
      · rw [roleStep_named hrole,
          List.filter_cons_of_neg (by simpa using hpr)]
        have hadd := lookupRole_addRole d (falsyOr p.role [])
          (canonical_norm (falsyOr p.entity []) syn ar) r
        rw [if_neg (fun h => hpr (Eq.symm h))] at hadd
        rw [ih, hadd]

theorem groupRoles_skips_empty (syn : Synonyms) (ar : AliasRules) :
    ∀ (parts : List RolePair) (d : List (Str × List Str)),
      parts.foldl (roleStep syn ar) d =
        (parts.filter (fun p => !(falsyOr p.role []).isEmpty)).foldl
          (roleStep syn ar) d := by
  intro parts
  induction parts with
  | nil => intro d; rfl
  | cons p rest ih =>
    intro d
    rw [List.foldl_cons]
    by_cases hrole : falsyOr p.role [] = []
    · have : (falsyOr p.role []).isEmpty = true := by
        rw [hrole]
        rfl
      rw [roleStep_empty hrole, List.filter_cons_of_neg (by simp [this])]
      exact ih d
    · have : (falsyOr p.role []).isEmpty = false := by
        cases hx : falsyOr p.role []
        · exact absurd hx hrole
        · rfl
      rw [List.filter_cons_of_pos (by simp [this]), List.foldl_cons]
      exact ih _

/-- C9. In the list-of-pairs participants shape, `normalize_events`
silently discards every pair with a missing or empty role (the grouped
mapping is the same as the one built from the non-empty-role pairs
only), and every pair with a non-empty role is grouped under that role
in encounter order, entities canonicalized. -/
theorem normalize_events_drops_empty_roles (syn : Synonyms) (ar : AliasRules)
    (e : RawEvent) (es : List RawEvent) (parts : List RolePair)
    (hp : e.participants = Participants.plist parts) :
    (normalize_events (e :: es) syn ar =
      Event.mk (falsyOr2 e.event_type e.typ) e.time e.location
        (groupRoles syn ar parts) e.evidence e.confidence ::
        normalize_events es syn ar) ∧
    (groupRoles syn ar parts =
      groupRoles syn ar
        (parts.filter (fun p => !(falsyOr p.role []).isEmpty))) ∧
    (∀ role : Str, role ≠ [] →
      lookupRole (groupRoles syn ar parts) role =
        (if ((parts.filter (fun p => falsyOr p.role [] = role)).map
            (fun p => canonical_norm (falsyOr p.entity []) syn ar)).isEmpty
         then none
         else some ((parts.filter (fun p => falsyOr p.role [] = role)).map
          (fun p => canonical_norm (falsyOr p.entity []) syn ar)))) := by
  refine ⟨?_, ?_, ?_⟩
  · unfold normalize_events
    rw [List.map_cons, hp]
  · exact groupRoles_skips_empty syn ar parts []
  · intro role hrole
    have h := groupRoles_fold_lookup syn ar role hrole parts []
    unfold groupRoles
    rw [h]
    have hnil : lookupRole [] role = none := rfl
    rw [hnil]
    by_cases hrest : ((parts.filter (fun p => falsyOr p.role [] = role)).map
        (fun p => canonical_norm (falsyOr p.entity []) syn ar)).isEmpty
    · rw [if_pos hrest, if_pos hrest]
    · rw [if_neg hrest, if_neg hrest]
      simp

/-- Witness for C9: participants
`[{entity: "x"}, {role: "r", entity: "y"}, {role: "", entity: "z"}]` —
only `"y"` survives, grouped under `"r"`. -/
theorem normalize_events_drops_empty_roles_witness :
    (normalize_events
        [RawEvent.mk (some (str "E")) none none none
          (Participants.plist
            [RolePair.mk none (some (str "x")),
             RolePair.mk (some (str "r")) (some (str "y")),
             RolePair.mk (some []) (some (str "z"))]) none none]
        [] (AliasRules.mk [] []) =
      Event.mk (falsyOr2 (some (str "E")) none) none none
        (groupRoles [] (AliasRules.mk [] [])
          [RolePair.mk none (some (str "x")),
           RolePair.mk (some (str "r")) (some (str "y")),
           RolePair.mk (some []) (some (str "z"))]) none none ::
        normalize_events [] [] (AliasRules.mk [] [])) ∧
    (lookupRole
        (groupRoles [] (AliasRules.mk [] [])
          [RolePair.mk none (some (str "x")),
           RolePair.mk (some (str "r")) (some (str "y")),
           RolePair.mk (some []) (some (str "z"))]) (str "r") =
      (if (([RolePair.mk none (some (str "x")),
             RolePair.mk (some (str "r")) (some (str "y")),
             RolePair.mk (some []) (some (str "z"))].filter
              (fun p => falsyOr p.role [] = str "r")).map
          (fun p =>
            canonical_norm (falsyOr p.entity []) [] (AliasRules.mk [] []))).isEmpty
       then none
       else some (([RolePair.mk none (some (str "x")),
             RolePair.mk (some (str "r")) (some (str "y")),
             RolePair.mk (some []) (some (str "z"))].filter
              (fun p => falsyOr p.role [] = str "r")).map
          (fun p =>
            canonical_norm (falsyOr p.entity []) [] (AliasRules.mk [] []))))) ∧
    lookupRole
        (groupRoles [] (AliasRules.mk [] [])
          [RolePair.mk none (some (str "x")),
           RolePair.mk (some (str "r")) (some (str "y")),
           RolePair.mk (some []) (some (str "z"))]) (str "r") =
      some [str "y"] := by
  refine ⟨?_, ?_, by decide⟩
  · exact (normalize_events_drops_empty_roles [] (AliasRules.mk [] [])
      (RawEvent.mk (some (str "E")) none none none
        (Participants.plist
          [RolePair.mk none (some (str "x")),
           RolePair.mk (some (str "r")) (some (str "y")),
           RolePair.mk (some []) (some (str "z"))]) none none)
      []
      [RolePair.mk none (some (str "x")),
       RolePair.mk (some (str "r")) (some (str "y")),
       RolePair.mk (some []) (some (str "z"))] rfl).1
  · exact (normalize_events_drops_empty_roles [] (AliasRules.mk [] [])
      (RawEvent.mk (some (str "E")) none none none
        (Participants.plist
          [RolePair.mk none (some (str "x")),
           RolePair.mk (some (str "r")) (some (str "y")),
           RolePair.mk (some []) (some (str "z"))]) none none)
      []
      [RolePair.mk none (some (str "x")),
       RolePair.mk (some (str "r")) (some (str "y")),
       RolePair.mk (some []) (some (str "z"))] rfl).2.2
      (str "r") (by decide)

/-! ### Claim C10: entities are collected before the synonyms-map
records are appended -/

theorem mem_addEnt {out : List Str} {x y : Str} (h : y ∈ addEnt out x) :
    y ∈ out ∨ y = x := by
  unfold addEnt at h
  by_cases hc : ¬x.isEmpty = true ∧ x ∉ out
  · rw [if_pos hc] at h
    rcases List.mem_append.mp h with h1 | h1
    · exact Or.inl h1
    · exact Or.inr (List.mem_singleton.mp h1)
  · rw [if_neg hc] at h
    exact Or.inl h

theorem mem_entity_relfold {rels : List Rel} :
    ∀ {out0 : List Str} {y : Str},
      y ∈ rels.foldl (fun out r => addEnt (addEnt out r.head) r.tail) out0 →
      y ∈ out0 ∨ ∃ r ∈ rels, y = r.head ∨ y = r.tail := by
  induction rels with
  | nil => exact fun h => Or.inl h
  | cons r rest ih =>
    intro out0 y h
    rw [List.foldl_cons] at h
    rcases ih h with h1 | ⟨r2, hr2, hy⟩
    · rcases mem_addEnt h1 with h2 | h2
      · rcases mem_addEnt h2 with h3 | h3
        · exact Or.inl h3
        · exact Or.inr ⟨r, List.mem_cons_self _ _, Or.inl h3⟩
      · exact Or.inr ⟨r, List.mem_cons_self _ _, Or.inr h2⟩
    · exact Or.inr ⟨r2, List.mem_cons_of_mem _ hr2, hy⟩

theorem mem_entity_hintfold {syn : Synonyms} {ar : AliasRules}
    {hints : List (Option Str)} :
    ∀ {out0 : List Str} {y : Str},
      y ∈ hints.foldl
        (fun out e => addEnt out (canonical_norm (e.getD []) syn ar)) out0 →
      y ∈ out0 ∨ ∃ e ∈ hints, y = canonical_norm (e.getD []) syn ar := by
  induction hints with
  | nil => exact fun h => Or.inl h
  | cons e rest ih =>
    intro out0 y h
    rw [List.foldl_cons] at h
    rcases ih h with h1 | ⟨e2, he2, hy⟩
    · rcases mem_addEnt h1 with h2 | h2
      · exact Or.inl h2
      · exact Or.inr ⟨e, List.mem_cons_self _ _, h2⟩
    · exact Or.inr ⟨e2, List.mem_cons_of_mem _ he2, hy⟩

theorem mem_collect_entities {relations : List Rel}
    {hints : List (Option Str)} {syn : Synonyms} {ar : AliasRules} {y : Str}
    (h : y ∈ collect_entities relations hints syn ar) :
    (∃ r ∈ relations, y = r.head ∨ y = r.tail) ∨
      ∃ e ∈ hints, y = canonical_norm (e.getD []) syn ar := by
  unfold collect_entities at h
  rcases mem_entity_hintfold h with h1 | h1
  · rcases mem_entity_relfold h1 with h2 | h2
    · cases h2
    · exact Or.inl h2
  · exact Or.inr h1

/-- C10. The entity list of `normalize_output` is computed before the
synthetic synonyms-map ALIAS records are appended: a synonym key that is
not an endpoint of any normalized relation and not a canonicalized hint
name heads an ALIAS record in the returned relations yet is absent from
the returned entities. -/
theorem normalize_output_entities_skip_synmap (raw : RawPayload)
    (syn : Synonyms) (ar : AliasRules) (ars : List Str) (a c : Str)
    (hmem : (a, c) ∈ syn)
    (hrel : ∀ r ∈ normalize_relations raw.relations syn ar ars,
      r.head ≠ a ∧ r.tail ≠ a)
    (hhint : ∀ e ∈ raw.entities, canonical_norm (e.getD []) syn ar ≠ a) :
    (∃ rec ∈ (normalize_output raw syn ar ars).relations,
      rec.head = a ∧ rec.relation = str "ALIAS") ∧
    a ∉ (normalize_output raw syn ar ars).entities := by
  constructor
  · refine ⟨synMapAliasRecord (a, c), ?_, rfl, rfl⟩
    show _ ∈ normalize_relations raw.relations syn ar ars ++
      syn.map synMapAliasRecord
    exact List.mem_append_right _ (List.mem_map_of_mem _ hmem)
  · intro hmem2
    have hcoll : a ∈ collect_entities
        (normalize_relations raw.relations syn ar ars) raw.entities syn ar :=
      hmem2
    rcases mem_collect_entities hcoll with ⟨r, hr, hy | hy⟩ | ⟨e, he, hy⟩
    · exact (hrel r hr).1 hy.symm
    · exact (hrel r hr).2 hy.symm
    · exact hhint e he hy.symm

/-- Witness for C10: empty payload, synonym table `{"k" ↦ "v"}` — the
output relations hold an ALIAS record headed `"k"` while the entity list
is empty. -/
theorem normalize_output_entities_skip_synmap_witness :
    ((str "k", str "v") ∈ [(str "k", str "v")]) ∧
    ((∃ rec ∈ (normalize_output (RawPayload.mk [] [] [])
        [(str "k", str "v")] (AliasRules.mk [] []) []).relations,
      rec.head = str "k" ∧ rec.relation = str "ALIAS") ∧
    str "k" ∉ (normalize_output (RawPayload.mk [] [] [])
        [(str "k", str "v")] (AliasRules.mk [] []) []).entities) :=
  ⟨List.mem_cons_self _ _,
   normalize_output_entities_skip_synmap (RawPayload.mk [] [] [])
    [(str "k", str "v")] (AliasRules.mk [] []) [] (str "k") (str "v")
    (List.mem_cons_self _ _) (by simp [normalize_relations]) (by simp)⟩

end GraphTravel
